import Mathlib

/-!
Verification of the mathmusic generative core (`mathmusic/util.py`,
`mathmusic/music.py`) against its natural-language specification.

Conventions of the shallow embedding:
* Pitches are integer scale degrees, embedded as `ℤ` (Python ints).
* Rhythm strings are `List Char`; note durations are exact rationals with
  denominators dividing 24 (the table has eighths and thirds), so durations
  are embedded as `ℤ` in units of 1/24 quarter-note beat (`NOTE_LENS`
  scaled by 24).  All comparisons and sums of durations in the source are
  order/equality tests that are invariant under this positive scaling.
* Python exceptions are modelled by `Except PyErr`; `PyErr` enumerates the
  exception classes the embedded code can raise.  `PyErr.invalidChordError`
  models the spec's hypothetical `InvalidChordError` class, which does not
  occur anywhere in the source.
* Randomness (`random.random`, `random.choices`) is modelled by oracle
  streams: a Boolean stream for threshold tests `random() < p` and a
  natural-number stream selecting among the outcomes of positive weight in
  a `random.choices(keys, bias)` call.  Claims here are universally
  quantified over the random outcome, so this is exactly the set of
  behaviours of the Python code.
* Potentially non-terminating loops are embedded with explicit fuel; fuel
  exhaustion is the embedding-artifact error `PyErr.fuelExhausted`, and all
  theorems are conditioned on a normal (`Except.ok`) return.
-/

/-- Python exception classes raised (or named by the spec) for the embedded
code.  `invalidChordError` and `rangeTooNarrowError` are the classes the
spec names; they are listed so the theorems can state that the code does
not raise them (no such classes exist in the repository). -/
inductive PyErr where
  | keyError
  | valueError
  | typeError
  | indexError
  | nameError
  | assertionError
  | zeroDivisionError
  | invalidChordError
  | rangeTooNarrowError
  | fuelExhausted
  deriving DecidableEq, Repr

/-- `util.NOTE_LENS`, scaled by 24: duration of each rhythm token in units
of 1/24 quarter-note beat (so `"w" ↦ 4` becomes `96`, `"t" ↦ 1/3` becomes
`8`, …).  Characters outside the table map to `0`; in Python they raise
`KeyError`, and every theorem that depends on durations only evaluates
`NOTE_LENS` on characters of the table. -/
def NOTE_LENS : Char → ℤ
  | 'w' => 96 | 'H' => 72 | 'h' => 48 | 'Q' => 36 | 'q' => 24
  | 'E' => 18 | 'e' => 12 | 's' => 6  | 't' => 8  | 'T' => 16
  | ' ' => 24 | '.' => 12 | '_' => 48 | ',' => 6  | '-' => 96
  | 'G' => 3  | 'g' => 0
  | '1' => 30 | '2' => 42 | '3' => 54 | '4' => 60 | '5' => 66
  | '6' => 78 | '7' => 84 | '8' => 90
  | _ => 0

/-- The five rest characters (the sets `"_- ,."`, `" _-.,"`, `" ,.-_"` used
at the various membership tests in the source all denote this set). -/
def isRest (c : Char) : Bool := c ∈ [' ', '_', '-', ',', '.']

/-- `music.duration`, scaled by 24: sum of the per-token durations of a
rhythm string. -/
def duration (rhythm : List Char) : ℤ := (rhythm.map NOTE_LENS).sum

/-- `music.count_notes`: the number of played (non-rest) tokens of a rhythm
string. -/
def count_notes (rhythm : List Char) : ℤ :=
  (rhythm.map (fun r => if isRest r then (0 : ℤ) else 1)).sum

theorem duration_append (a b : List Char) :
    duration (a ++ b) = duration a + duration b := by
  simp [duration]

theorem count_notes_append (a b : List Char) :
    count_notes (a ++ b) = count_notes a + count_notes b := by
  simp [count_notes]

/-- `music.Part.measures`, worker loop.  State: `m_notes`/`m_ryth` are the
accumulators of the measure under construction, `ni` indexes `notes`.
Returns the list of yielded `(m_notes, m_ryth)` pairs together with the
final (never yielded) accumulator `m_ryth`; indexing `notes` out of range
raises `IndexError` as in Python. -/
def measuresGo (notes : List ℤ) (meter : ℤ) :
    List Char → List ℤ → List Char → ℕ →
    Except PyErr (List (List ℤ × List Char) × List Char)
  | [], _, mR, _ => .ok ([], mR)
  | r :: rest, mN, mR, ni =>
    let pick : Except PyErr (List ℤ × ℕ) :=
      if isRest r then .ok (mN, ni)
      else match notes[ni]? with
        | none => .error .indexError
        | some v => .ok (mN ++ [v], ni + 1)
    match pick with
    | .error e => .error e
    | .ok (mN', ni') =>
      let mR' := mR ++ [r]
      if 24 * meter ≤ duration mR' then
        match measuresGo notes meter rest [] [] ni' with
        | .error e => .error e
        | .ok (ms, leftover) => .ok ((mN', mR') :: ms, leftover)
      else
        measuresGo notes meter rest mN' mR' ni'

/-- `music.Part.measures` on a part with the given `notes` and `rhythms`:
the yielded measures, plus the trailing accumulator that the generator
never yields. -/
def measures (notes : List ℤ) (rhythms : List Char) (meter : ℤ) :
    Except PyErr (List (List ℤ × List Char) × List Char) :=
  measuresGo notes meter rhythms [] [] 0

theorem measuresGo_spec (notes : List ℤ) (meter : ℤ) (hm : 0 < meter) :
    ∀ (rs : List Char) (mN : List ℤ) (mR : List Char) (ni : ℕ)
      (ms : List (List ℤ × List Char)) (leftover : List Char),
      duration mR < 24 * meter →
      measuresGo notes meter rs mN mR ni = .ok (ms, leftover) →
      (ms.map Prod.snd).flatten ++ leftover = mR ++ rs ∧
        (∀ m ∈ ms, 24 * meter ≤ duration m.2) ∧
        duration leftover < 24 * meter := by
  intro rs
  induction rs with
  | nil =>
    intro mN mR ni ms leftover hlt h
    simp only [measuresGo] at h
    cases h
    simp [hlt]
  | cons r rest ih =>
    intro mN mR ni ms leftover hlt h
    simp only [measuresGo] at h
    rcases hpick : (if isRest r then Except.ok (mN, ni)
        else match notes[ni]? with
          | none => Except.error PyErr.indexError
          | some v => Except.ok (mN ++ [v], ni + 1)) with e | p
    · rw [hpick] at h; cases h
    · rw [hpick] at h
      obtain ⟨mN', ni'⟩ := p
      by_cases hy : 24 * meter ≤ duration (mR ++ [r])
      · simp only [hy, if_pos] at h
        rcases hrec : measuresGo notes meter rest [] [] ni' with e | q
        · rw [hrec] at h; cases h
        · rw [hrec] at h
          obtain ⟨ms', leftover'⟩ := q
          cases h
          have hz : duration ([] : List Char) < 24 * meter := by
            simpa [duration] using hm
          obtain ⟨h1, h2, h3⟩ := ih [] [] ni' ms' leftover hz hrec
          refine ⟨?_, ?_, h3⟩
          · simp only [List.map_cons, List.flatten_cons, List.append_assoc, h1]
            simp
          · intro m hmem
            rcases List.mem_cons.mp hmem with h | h
            · subst h; exact hy
            · exact h2 m h
      · simp only [hy, if_neg, not_false_iff] at h
        have hlt' : duration (mR ++ [r]) < 24 * meter := lt_of_not_le hy
        obtain ⟨h1, h2, h3⟩ := ih mN' (mR ++ [r]) ni' ms leftover hlt' h
        refine ⟨?_, h2, h3⟩
        rw [h1]
        simp

/-- C10: for every Part and positive meter, `Part.measures` yields only
complete measures: every yielded rhythm substring has duration ≥ `meter`,
the concatenation of the yielded substrings followed by the unyielded
trailing accumulator is exactly the part's rhythm string (so the
concatenation is a prefix of it), and the trailing tokens, of accumulated
duration < `meter`, are never yielded. -/
theorem measures_only_complete (notes : List ℤ) (rhythms : List Char)
    (meter : ℤ) (ms : List (List ℤ × List Char)) (leftover : List Char)
    (hm : 0 < meter)
    (h : measures notes rhythms meter = .ok (ms, leftover)) :
    (ms.map Prod.snd).flatten ++ leftover = rhythms ∧
      (∀ m ∈ ms, 24 * meter ≤ duration m.2) ∧
      duration leftover < 24 * meter := by
  have hz : duration ([] : List Char) < 24 * meter := by
    simpa [duration] using hm
  obtain ⟨h1, h2, h3⟩ := measuresGo_spec notes meter hm rhythms [] [] 0 ms leftover hz h
  exact ⟨by simpa using h1, h2, h3⟩

/-- Witness for C10 at a concrete part: notes C D E over rhythm "qh e",
meter 1 (the trailing eighth note is shorter than a measure and is never
yielded). -/
theorem measures_only_complete_witness :
    (0 : ℤ) < 1 ∧
      ((([([1], ['q']), ([2], ['h']), ([], [' '])] :
            List (List ℤ × List Char)).map
          Prod.snd).flatten ++ ['e'] = ['q', 'h', ' ', 'e'] ∧
        (∀ m ∈ ([([1], ['q']), ([2], ['h']), ([], [' '])] :
            List (List ℤ × List Char)),
          24 * 1 ≤ duration m.2) ∧
        duration ['e'] < 24 * 1) := by
  refine ⟨by decide, measures_only_complete [1, 2, 3] ['q', 'h', ' ', 'e'] 1
    [([1], ['q']), ([2], ['h']), ([], [' '])] ['e'] (by decide) ?_⟩
  rfl

/-- Left-to-right effectful map: the list comprehension
`[f(p) for p in notes]`, stopping at the first raised exception. -/
def listMapE (f : ℤ → Except PyErr ℤ) : List ℤ → Except PyErr (List ℤ)
  | [] => .ok []
  | a :: t =>
    match f a with
    | .error e => .error e
    | .ok b =>
      match listMapE f t with
      | .error e => .error e
      | .ok bs => .ok (b :: bs)

/-- `music.clip_pitch`.  Both out-of-range branches evaluate the name
`ceil`, which `music.py` never imports (its only `math` imports are `log`
and `exp`), so in Python they raise `NameError`; a pitch already in
`[min_pitch, max_pitch]` is returned unchanged. -/
def clip_pitch (pitch min_pitch max_pitch : ℤ) : Except PyErr ℤ :=
  if pitch < min_pitch then .error .nameError
  else if max_pitch < pitch then .error .nameError
  else .ok pitch

/-- `music.Part.clip` applied to the part's notes: `assert max_pitch >=
min_pitch+7` raises a bare `AssertionError` (there is no
`RangeTooNarrowError` class anywhere in the repository), then each pitch
goes through `clip_pitch`. -/
def Part_clip (notes : List ℤ) (min_pitch max_pitch : ℤ) :
    Except PyErr (List ℤ) :=
  if min_pitch + 7 ≤ max_pitch then
    listMapE (fun p => clip_pitch p min_pitch max_pitch) notes
  else .error .assertionError

/-- C9 (code bug): `Part.clip` on a part holding the out-of-range pitch 15
with range `[-1, 11]` raises `NameError` (the claimed behaviour is to fold
15 to 8), because `music.py` never imports `ceil`; pitches already in
range are returned unchanged; and a too-narrow range raises a bare
`AssertionError`, not the spec's `RangeTooNarrowError`. -/
theorem clip_is_broken :
    Part_clip [15] (-1) 11 = .error .nameError ∧
      Part_clip [5, 11] (-1) 11 = .ok [5, 11] ∧
      Part_clip [3] 0 5 = .error .assertionError ∧
      Part_clip [3] 0 5 ≠ .error .rangeTooNarrowError := by
  refine ⟨rfl, rfl, rfl, fun h => ?_⟩
  rw [show Part_clip [3] 0 5 = .error .assertionError from rfl] at h
  cases h

/-- The root used by `Chord.__init__`: `min(pitches)` (the minimum of the
deduplicated pitch set equals the minimum of the list). -/
def rootOf (l : List ℤ) : ℤ := l.foldl min l.headI

/-- The normalized pitch list computed by `Chord.__init__`: deduplicate,
then sort by the key `(x - root) % 7` and map each pitch to
`(p - root) % 7 + root`.  Since the final value is a monotone function of
the sort key alone, sorting by key and then mapping equals mapping and
then sorting. -/
def normPitches (l : List ℤ) : List ℤ :=
  List.insertionSort (· ≤ ·)
    (l.dedup.map fun p => (p - rootOf l) % 7 + rootOf l)

/-- `music.Chord.__init__`: `min(set(pitches))` raises `ValueError` on an
empty collection; otherwise the normalized pitch list is stored. -/
def Chord_init (pitches : List ℤ) : Except PyErr (List ℤ) :=
  if pitches.isEmpty then .error .valueError
  else .ok (normPitches pitches)

theorem foldl_min_le (l : List ℤ) (a : ℤ) :
    l.foldl min a ≤ a ∧ ∀ x ∈ l, l.foldl min a ≤ x := by
  induction l generalizing a with
  | nil => simp
  | cons h t ih =>
    obtain ⟨ih1, ih2⟩ := ih (min a h)
    refine ⟨le_trans ih1 (min_le_left _ _), ?_⟩
    intro x hx
    rcases List.mem_cons.mp hx with rfl | hx
    · exact le_trans ih1 (min_le_right _ _)
    · exact ih2 x hx

theorem foldl_min_mem (l : List ℤ) (a : ℤ) :
    l.foldl min a = a ∨ l.foldl min a ∈ l := by
  induction l generalizing a with
  | nil => simp
  | cons h t ih =>
    rcases ih (min a h) with heq | hmem
    · rw [List.foldl_cons, heq]
      rcases min_choice a h with h1 | h1
      · exact Or.inl h1
      · exact Or.inr (by simp [h1])
    · exact Or.inr (List.mem_cons_of_mem _ hmem)

theorem rootOf_le (l : List ℤ) : ∀ x ∈ l, rootOf l ≤ x :=
  (foldl_min_le l l.headI).2

theorem rootOf_mem (l : List ℤ) (hl : l ≠ []) : rootOf l ∈ l := by
  rcases foldl_min_mem l l.headI with heq | hmem
  · rw [rootOf, heq]
    obtain ⟨h, t, rfl⟩ := List.exists_cons_of_ne_nil hl
    simp
  · exact hmem

theorem mem_normPitches {l : List ℤ} {x : ℤ} :
    x ∈ normPitches l ↔ ∃ p ∈ l, x = (p - rootOf l) % 7 + rootOf l := by
  rw [normPitches, List.mem_insertionSort, List.mem_map]
  constructor
  · rintro ⟨p, hp, rfl⟩
    exact ⟨p, (List.mem_dedup).1 hp, rfl⟩
  · rintro ⟨p, hp, rfl⟩
    exact ⟨p, (List.mem_dedup).2 hp, rfl⟩

theorem normPitches_ne_nil {l : List ℤ} (hl : l ≠ []) : normPitches l ≠ [] := by
  have : rootOf l ∈ normPitches l :=
    mem_normPitches.2 ⟨rootOf l, rootOf_mem l hl, by simp⟩
  exact List.ne_nil_of_mem this

theorem normPitches_sub_root {l : List ℤ} :
    ∀ q ∈ normPitches l, 0 ≤ q - rootOf l ∧ q - rootOf l < 7 := by
  intro q hq
  obtain ⟨p, _, rfl⟩ := mem_normPitches.1 hq
  simp only [add_sub_cancel_right]
  exact ⟨Int.emod_nonneg _ (by norm_num), Int.emod_lt_of_pos _ (by norm_num)⟩

theorem normPitches_sorted (l : List ℤ) :
    List.Sorted (· ≤ ·) (normPitches l) :=
  List.sorted_insertionSort _ _

theorem normPitches_headI {l : List ℤ} (hl : l ≠ []) :
    (normPitches l).headI = rootOf l := by
  have hroot : rootOf l ∈ normPitches l :=
    mem_normPitches.2 ⟨rootOf l, rootOf_mem l hl, by simp⟩
  obtain ⟨a, t, he⟩ := List.exists_cons_of_ne_nil (normPitches_ne_nil hl)
  have hs := normPitches_sorted l
  rw [he] at hs hroot ⊢
  have hge : 0 ≤ a - rootOf l := by
    have := normPitches_sub_root (l := l) a (by rw [he]; exact List.mem_cons_self a t)
    exact this.1
  have hle : a ≤ rootOf l := by
    rcases List.mem_cons.1 hroot with h | h
    · omega
    · exact List.rel_of_sorted_cons hs _ h
  simp only [List.headI_cons]
  omega

/-- The normalization invariant established by `Chord.__init__`: a
non-empty pitch list whose head is the root and whose members all lie in
the root's octave band `[root, root + 7)`. -/
def IsChord (c : List ℤ) : Prop :=
  c ≠ [] ∧ ∀ q ∈ c, 0 ≤ q - c.headI ∧ q - c.headI < 7

theorem isChord_normPitches {l : List ℤ} (hl : l ≠ []) :
    IsChord (normPitches l) := by
  refine ⟨normPitches_ne_nil hl, ?_⟩
  intro q hq
  rw [normPitches_headI hl]
  exact normPitches_sub_root q hq

/-- C8, counterexample: on an empty pitch collection `Chord.__init__`
raises the builtin `ValueError` (from `min` of an empty sequence), not the
`InvalidChordError` the claim names — no such class exists anywhere in the
repository. -/
theorem Chord_init_empty_raises_valueError :
    Chord_init [] = .error .valueError ∧
      Chord_init [] ≠ .error .invalidChordError := by
  refine ⟨rfl, fun h => ?_⟩
  rw [show Chord_init [] = .error .valueError from rfl] at h
  cases h

/-- C8, amended: `Chord.__init__` fails — with the builtin `ValueError`,
not a dedicated `InvalidChordError` — exactly when the supplied pitch
collection is empty; every non-empty collection succeeds, yielding the
normalized pitch list. -/
theorem Chord_init_fails_iff_empty (l : List ℤ) :
    (Chord_init l = .error .valueError ↔ l = []) ∧
      (l ≠ [] → Chord_init l = .ok (normPitches l)) := by
  constructor
  · constructor
    · intro h
      by_contra hne
      rw [Chord_init, if_neg (by simpa using hne)] at h
      cases h
    · rintro rfl; rfl
  · intro hne
    rw [Chord_init, if_neg (by simpa using hne)]

/-- Witness for C8 at the concrete pitch set `{1, 8}` (note the duplicated
residue: the normalized list is `[1, 1]`). -/
theorem Chord_init_fails_iff_empty_witness :
    (Chord_init [1, 8] = .error .valueError ↔ ([1, 8] : List ℤ) = []) ∧
      Chord_init [1, 8] = .ok (normPitches [1, 8]) := by
  have h := Chord_init_fails_iff_empty [1, 8]
  exact ⟨h.1, h.2 (by decide)⟩

/-- `music.Chord.scale_intervals`: each member's offset from the root
(`[p - root for p in self.pitches]`). -/
def scale_intervals (c : List ℤ) : List ℤ := c.map (fun p => p - c.headI)

/-- `music.Chord.__eq__` on normalized pitch lists: equal lengths, equal
root pitch-class mod 7, and pairwise equal intervals from the root at the
indices `range(1, len(pitches))`. -/
def Chord_eq (a b : List ℤ) : Bool :=
  if a.length ≠ b.length then false
  else if a.headI % 7 ≠ b.headI % 7 then false
  else if (List.range' 1 (a.length - 1)).all
      (fun i => decide (a.getD i 0 - a.headI = b.getD i 0 - b.headI)) then
    true
  else false

/-- `music.Chord.__hash__` models the canonical tuple whose Python hash is
returned: each pitch shifted by `pitches[0] % 7 - pitches[0]`.  Equal
tuples have equal Python hashes, so tuple equality is the faithful
hash-equality statement. -/
def Chord_hash (c : List ℤ) : List ℤ :=
  c.map (fun p => p + (c.headI % 7 - c.headI))

theorem headI_eq_getElem_zero (a : List ℤ) (h : 0 < a.length) :
    a.headI = a[0] := by
  cases a with
  | nil => simp at h
  | cons x t => simp

theorem scale_intervals_eq_iff (a b : List ℤ) (hlen : a.length = b.length) :
    scale_intervals a = scale_intervals b ↔
      ∀ i, 1 ≤ i → i < a.length →
        a.getD i 0 - a.headI = b.getD i 0 - b.headI := by
  constructor
  · intro h i h1 h2
    have h2b : i < b.length := by omega
    have h' := congrArg (fun l => l[i]?) h
    simp only [scale_intervals, List.getElem?_map] at h'
    rw [List.getElem?_eq_getElem h2, List.getElem?_eq_getElem h2b] at h'
    simp only [Option.map_some'] at h'
    rw [List.getD_eq_getElem a 0 h2, List.getD_eq_getElem b 0 h2b]
    exact Option.some_injective _ h'
  · intro hpt
    apply List.ext_getElem (by simp [scale_intervals, hlen])
    intro i hi1 hi2
    have hia : i < a.length := by simpa [scale_intervals] using hi1
    have hib : i < b.length := by simpa [scale_intervals] using hi2
    simp only [scale_intervals, List.getElem_map]
    rcases Nat.eq_zero_or_pos i with rfl | hpos
    · rw [← headI_eq_getElem_zero a hia, ← headI_eq_getElem_zero b hib]
      omega
    · have := hpt i hpos hia
      rwa [List.getD_eq_getElem a 0 hia, List.getD_eq_getElem b 0 hib] at this

theorem Chord_eq_iff (a b : List ℤ) :
    Chord_eq a b = true ↔
      (a.length = b.length ∧ a.headI % 7 = b.headI % 7 ∧
        scale_intervals a = scale_intervals b) := by
  rw [Chord_eq]
  by_cases hlen : a.length = b.length
  · rw [if_neg (by simpa using hlen)]
    by_cases hroot : a.headI % 7 = b.headI % 7
    · rw [if_neg (by simpa using hroot)]
      have hcond : (List.range' 1 (a.length - 1)).all
          (fun i => decide (a.getD i 0 - a.headI = b.getD i 0 - b.headI)) = true ↔
          scale_intervals a = scale_intervals b := by
        rw [List.all_eq_true, scale_intervals_eq_iff a b hlen]
        constructor
        · intro hall i h1 h2
          exact of_decide_eq_true (hall i (List.mem_range'_1.2 ⟨h1, by omega⟩))
        · intro hpt i hi
          rw [List.mem_range'_1] at hi
          exact decide_eq_true (hpt i hi.1 (by omega))
      by_cases hall : (List.range' 1 (a.length - 1)).all
          (fun i => decide (a.getD i 0 - a.headI = b.getD i 0 - b.headI)) = true
      · rw [if_pos hall]
        simp only [true_iff]
        exact ⟨hlen, hroot, hcond.1 hall⟩
      · rw [if_neg hall]
        constructor
        · intro h; cases h
        · rintro ⟨_, _, hsi⟩
          exact absurd (hcond.2 hsi) hall
    · rw [if_pos (by simpa using hroot)]
      constructor
      · intro h; cases h
      · rintro ⟨_, h2, _⟩; exact absurd h2 hroot
  · rw [if_pos (by simpa using hlen)]
    constructor
    · intro h; cases h
    · rintro ⟨h1, _, _⟩; exact absurd h1 hlen

theorem foldl_min_map_add (l : List ℤ) (a c : ℤ) :
    (l.map (· + c)).foldl min (a + c) = l.foldl min a + c := by
  induction l generalizing a with
  | nil => simp
  | cons h t ih =>
    simp only [List.map_cons, List.foldl_cons]
    rw [min_add_add_right a h c]
    exact ih _

theorem rootOf_map_add {l : List ℤ} (hl : l ≠ []) (c : ℤ) :
    rootOf (l.map (· + c)) = rootOf l + c := by
  obtain ⟨h, t, rfl⟩ := List.exists_cons_of_ne_nil hl
  simp only [rootOf, List.map_cons, List.headI_cons, List.foldl_cons]
  rw [min_add_add_right h h c]
  exact foldl_min_map_add t (min h h) c

theorem normPitches_map_add {l : List ℤ} (hl : l ≠ []) (k : ℤ) :
    normPitches (l.map (· + 7 * k)) = (normPitches l).map (· + 7 * k) := by
  have hinj : Function.Injective (· + 7 * k : ℤ → ℤ) := add_left_injective _
  rw [normPitches, normPitches, List.dedup_map_of_injective hinj,
    rootOf_map_add hl, List.map_map]
  have hfun : ((fun p => (p - (rootOf l + 7 * k)) % 7 + (rootOf l + 7 * k)) ∘
      (· + 7 * k)) = (· + 7 * k) ∘ (fun p => (p - rootOf l) % 7 + rootOf l) := by
    funext p
    simp only [Function.comp_apply]
    have : p + 7 * k - (rootOf l + 7 * k) = p - rootOf l := by ring
    rw [this]
    ring
  rw [hfun, ← List.map_map]
  exact (List.map_insertionSort _ _ _ _ (by
    intro a _ b _
    simp)).symm

/-- C6: chords built from pitch sets differing by a uniform shift of a
multiple of 7 compare equal (`Chord.__eq__`) and hash equal
(`Chord.__hash__`); and in general two constructed chords are `__eq__` iff
they have equal cardinality, equal root pitch-class mod 7, and identical
interval pattern relative to their roots. -/
theorem Chord_eq_octave_invariant (P Q : List ℤ) (k : ℤ)
    (hP : P ≠ []) (hQ : Q ≠ []) :
    (Q = P.map (· + 7 * k) →
      Chord_eq (normPitches P) (normPitches Q) = true ∧
        Chord_hash (normPitches P) = Chord_hash (normPitches Q)) ∧
    (Chord_eq (normPitches P) (normPitches Q) = true ↔
      ((normPitches P).length = (normPitches Q).length ∧
        (normPitches P).headI % 7 = (normPitches Q).headI % 7 ∧
        scale_intervals (normPitches P) = scale_intervals (normPitches Q))) := by
  refine ⟨?_, Chord_eq_iff _ _⟩
  rintro rfl
  rw [normPitches_map_add hP k]
  obtain ⟨x, t, he⟩ := List.exists_cons_of_ne_nil (normPitches_ne_nil hP)
  rw [he]
  constructor
  · rw [Chord_eq_iff]
    refine ⟨by simp, ?_, ?_⟩
    · simp only [List.map_cons, List.headI_cons]
      omega
    · simp only [scale_intervals, List.map_cons, List.headI_cons, List.map_map]
      congr 1
      · ring
      · congr 1
        funext p
        simp only [Function.comp_apply]
        ring
  · simp only [Chord_hash, List.map_cons, List.headI_cons, List.map_map]
    have hmod : (x + 7 * k) % 7 = x % 7 := by omega
    rw [hmod]
    congr 1
    · ring
    · congr 1
      funext p
      simp only [Function.comp_apply]
      ring

/-- Witness for C6 at the concrete pitch sets `{1,3,5}` and `{8,10,12}`
(the first shifted up an octave). -/
theorem Chord_eq_octave_invariant_witness :
    Chord_eq (normPitches [1, 3, 5]) (normPitches [8, 10, 12]) = true ∧
      Chord_hash (normPitches [1, 3, 5]) =
        Chord_hash (normPitches [8, 10, 12]) :=
  (Chord_eq_octave_invariant [1, 3, 5] [8, 10, 12] 1 (by decide)
    (by decide)).1 (by decide)

/-- Python's `min(lst, key=key)` on a non-empty list: the first element
attaining the minimal key (the accumulator is replaced only on a strictly
smaller key). -/
def pyMinBy (key : ℤ → ℤ) (l : List ℤ) : ℤ :=
  l.tail.foldl (fun m x => if key x < key m then x else m) l.headI

theorem foldl_minBy_mem (key : ℤ → ℤ) :
    ∀ (l : List ℤ) (a : ℤ),
      l.foldl (fun m x => if key x < key m then x else m) a = a ∨
        l.foldl (fun m x => if key x < key m then x else m) a ∈ l := by
  intro l
  induction l with
  | nil => intro a; simp
  | cons h t ih =>
    intro a
    rw [List.foldl_cons]
    by_cases hx : key h < key a
    · rw [if_pos hx]
      rcases ih h with heq | hmem
      · exact Or.inr (by simp [heq])
      · exact Or.inr (List.mem_cons_of_mem _ hmem)
    · rw [if_neg hx]
      rcases ih a with heq | hmem
      · exact Or.inl heq
      · exact Or.inr (List.mem_cons_of_mem _ hmem)

theorem foldl_minBy_le (key : ℤ → ℤ) :
    ∀ (l : List ℤ) (a : ℤ),
      key (l.foldl (fun m x => if key x < key m then x else m) a) ≤ key a ∧
        ∀ x ∈ l,
          key (l.foldl (fun m x => if key x < key m then x else m) a) ≤ key x := by
  intro l
  induction l with
  | nil => intro a; simp
  | cons h t ih =>
    intro a
    rw [List.foldl_cons]
    by_cases hx : key h < key a
    · rw [if_pos hx]
      obtain ⟨ih1, ih2⟩ := ih h
      refine ⟨le_trans ih1 (le_of_lt hx), ?_⟩
      intro x hmem
      rcases List.mem_cons.1 hmem with rfl | hmem
      · exact ih1
      · exact ih2 x hmem
    · rw [if_neg hx]
      obtain ⟨ih1, ih2⟩ := ih a
      refine ⟨ih1, ?_⟩
      intro x hmem
      rcases List.mem_cons.1 hmem with rfl | hmem
      · exact le_trans ih1 (not_lt.1 hx)
      · exact ih2 x hmem

theorem foldl_minBy_first (key : ℤ → ℤ) :
    ∀ (l : List ℤ) (a : ℤ),
      l.foldl (fun m x => if key x < key m then x else m) a = a ∨
        key (l.foldl (fun m x => if key x < key m then x else m) a) < key a := by
  intro l
  induction l with
  | nil => intro a; simp
  | cons h t ih =>
    intro a
    rw [List.foldl_cons]
    by_cases hx : key h < key a
    · rw [if_pos hx]
      rcases ih h with heq | hlt
      · rw [heq]; exact Or.inr hx
      · exact Or.inr (lt_trans hlt hx)
    · rw [if_neg hx]
      exact ih a

theorem pyMinBy_mem (key : ℤ → ℤ) {l : List ℤ} (hl : l ≠ []) :
    pyMinBy key l ∈ l := by
  obtain ⟨h, t, rfl⟩ := List.exists_cons_of_ne_nil hl
  rw [pyMinBy]
  rcases foldl_minBy_mem key t h with heq | hmem
  · simp only [List.tail_cons, List.headI_cons, heq]
    exact List.mem_cons_self _ _
  · exact List.mem_cons_of_mem _ (by simpa using hmem)

theorem pyMinBy_le (key : ℤ → ℤ) {l : List ℤ} :
    ∀ x ∈ l, key (pyMinBy key l) ≤ key x := by
  intro x hx
  obtain ⟨h, t, rfl⟩ := List.exists_cons_of_ne_nil (List.ne_nil_of_mem hx)
  rw [pyMinBy]
  simp only [List.tail_cons, List.headI_cons]
  obtain ⟨h1, h2⟩ := foldl_minBy_le key t h
  rcases List.mem_cons.1 hx with rfl | hx
  · exact h1
  · exact h2 x hx

theorem pyMinBy_first (key : ℤ → ℤ) {l : List ℤ} (hl : l ≠ []) :
    pyMinBy key l = l.headI ∨ key (pyMinBy key l) < key l.headI := by
  obtain ⟨h, t, rfl⟩ := List.exists_cons_of_ne_nil hl
  rw [pyMinBy]
  simp only [List.tail_cons, List.headI_cons]
  exact foldl_minBy_first key t h

/-- The octave-band shift computed inside `Chord.nearest` from the residue
`mod_out` of the probed pitch: the first interval of minimal circular
distance, minus `mod_out`, bumped an octave when its magnitude exceeds
3.5 (written `7 < 2*|md|` — the exact comparison `abs(mod) > 3.5` of the
source on integer values). -/
def nearestShift (c : List ℤ) (mod_out : ℤ) : ℤ :=
  let mod_in := pyMinBy (fun x => min |x - mod_out| (7 - |x - mod_out|))
    (scale_intervals c)
  let md := mod_in - mod_out
  if 7 < 2 * |md| then md + 7 else md

/-- `music.Chord.nearest`. -/
def nearest (c : List ℤ) (pitch : ℤ) : ℤ :=
  pitch + nearestShift c ((pitch - c.headI) % 7)

/-- Circular scale distance between two pitches modulo the 7-degree
octave. -/
def circDist (a b : ℤ) : ℤ := min ((a - b) % 7) ((b - a) % 7)

theorem scale_intervals_ne_nil {c : List ℤ} (hc : c ≠ []) :
    scale_intervals c ≠ [] := by
  obtain ⟨h, t, rfl⟩ := List.exists_cons_of_ne_nil hc
  simp [scale_intervals]

theorem scale_intervals_headI {c : List ℤ} (hc : c ≠ []) :
    (scale_intervals c).headI = 0 := by
  obtain ⟨h, t, rfl⟩ := List.exists_cons_of_ne_nil hc
  simp [scale_intervals]

theorem scale_intervals_band {c : List ℤ} (hc : IsChord c) :
    ∀ x ∈ scale_intervals c, 0 ≤ x ∧ x < 7 := by
  intro x hx
  obtain ⟨q, hq, rfl⟩ := List.mem_map.1 hx
  exact hc.2 q hq

theorem nearestShift_spec {c : List ℤ} (hc : IsChord c) (mo : ℤ)
    (hmo1 : 0 ≤ mo) (hmo2 : mo < 7) :
    ∃ mi, mi ∈ scale_intervals c ∧
      (∀ x ∈ scale_intervals c,
        min |mi - mo| (7 - |mi - mo|) ≤ min |x - mo| (7 - |x - mo|)) ∧
      -3 ≤ nearestShift c mo ∧ nearestShift c mo ≤ 3 ∧
      (nearestShift c mo - (mi - mo)) % 7 = 0 := by
  have hne := scale_intervals_ne_nil hc.1
  refine ⟨pyMinBy (fun x => min |x - mo| (7 - |x - mo|)) (scale_intervals c),
    pyMinBy_mem _ hne, pyMinBy_le _, ?_⟩
  set mi := pyMinBy (fun x => min |x - mo| (7 - |x - mo|)) (scale_intervals c)
    with hmi
  have hmem : mi ∈ scale_intervals c := pyMinBy_mem _ hne
  have hband := scale_intervals_band hc mi hmem
  have hfirst : mi = 0 ∨
      min |mi - mo| (7 - |mi - mo|) < min |0 - mo| (7 - |0 - mo|) := by
    have h := pyMinBy_first (fun x => min |x - mo| (7 - |x - mo|)) hne
    rwa [scale_intervals_headI hc.1] at h
  have hle3 : mi - mo ≤ 3 := by
    by_contra hcon
    push_neg at hcon
    rcases hfirst with h0 | hlt
    · omega
    · simp only [Int.abs_eq_natAbs] at hlt
      omega
  have hshift : nearestShift c mo =
      if 7 < 2 * |mi - mo| then mi - mo + 7 else mi - mo := rfl
  rw [hshift]
  by_cases hif : 7 < 2 * |mi - mo|
  · rw [if_pos hif]
    simp only [Int.abs_eq_natAbs] at hif
    refine ⟨by omega, by omega, by omega⟩
  · rw [if_neg hif]
    simp only [Int.abs_eq_natAbs] at hif
    refine ⟨by omega, by omega, by omega⟩

theorem nearestShift_self {c : List ℤ} (hc : IsChord c) {mi : ℤ}
    (hmem : mi ∈ scale_intervals c) : nearestShift c mi = 0 := by
  have hne := scale_intervals_ne_nil hc.1
  have hband := scale_intervals_band hc mi hmem
  set mi' := pyMinBy (fun x => min |x - mi| (7 - |x - mi|)) (scale_intervals c)
    with hmi'
  have hmem' : mi' ∈ scale_intervals c := pyMinBy_mem _ hne
  have hband' := scale_intervals_band hc mi' hmem'
  have hle := pyMinBy_le (fun x => min |x - mi| (7 - |x - mi|)) mi hmem
  rw [← hmi'] at hle
  simp only [Int.abs_eq_natAbs] at hle
  have heq : mi' = mi := by omega
  have hshift : nearestShift c mi =
      if 7 < 2 * |mi' - mi| then mi' - mi + 7 else mi' - mi := rfl
  rw [hshift, heq]
  simp

theorem nearest_spec {c : List ℤ} (hc : IsChord c) (p : ℤ) :
    (∃ q ∈ c, (nearest c p - q) % 7 = 0) ∧
      |nearest c p - p| ≤ 3 ∧
      (∀ q ∈ c, circDist (nearest c p) p ≤ circDist q p) ∧
      nearest c (nearest c p) = nearest c p := by
  have hmo1 : 0 ≤ (p - c.headI) % 7 := Int.emod_nonneg _ (by norm_num)
  have hmo2 : (p - c.headI) % 7 < 7 := Int.emod_lt_of_pos _ (by norm_num)
  obtain ⟨mi, hmi_mem, hmi_min, hs1, hs2, hs3⟩ :=
    nearestShift_spec hc ((p - c.headI) % 7) hmo1 hmo2
  have hmiband := scale_intervals_band hc mi hmi_mem
  have hNp : nearest c p = p + nearestShift c ((p - c.headI) % 7) := rfl
  set sh := nearestShift c ((p - c.headI) % 7) with hshdef
  obtain ⟨q0, hq0c, hq0⟩ := List.mem_map.1 hmi_mem
  refine ⟨⟨q0, hq0c, ?_⟩, ?_, ?_, ?_⟩
  · rw [hNp]
    omega
  · rw [hNp]
    simp only [Int.abs_eq_natAbs]
    omega
  · intro q hq
    have hrq : q - c.headI ∈ scale_intervals c :=
      List.mem_map.2 ⟨q, hq, rfl⟩
    have hrqband := scale_intervals_band hc _ hrq
    have hmin := hmi_min _ hrq
    rw [hNp, circDist, circDist, le_min_iff, min_le_iff, min_le_iff]
    rw [le_min_iff, min_le_iff, min_le_iff] at hmin
    rcases abs_cases (mi - (p - c.headI) % 7) with ⟨ha1, hb1⟩ | ⟨ha1, hb1⟩ <;>
      rcases abs_cases (q - c.headI - (p - c.headI) % 7) with
        ⟨ha2, hb2⟩ | ⟨ha2, hb2⟩ <;>
      rw [ha1, ha2] at hmin <;> omega
  · have hmo' : (nearest c p - c.headI) % 7 = mi := by
      rw [hNp]
      omega
    have hN2 : nearest c (nearest c p) =
        nearest c p + nearestShift c ((nearest c p - c.headI) % 7) := rfl
    rw [hN2, hmo', nearestShift_self hc hmi_mem, add_zero]

/-- C5: for every constructed chord and every integer pitch `p`,
`Chord.nearest p` is congruent mod 7 to a member of the chord, the shift
it applies has magnitude at most 3 (for integer pitches the circular
distances are integers ≤ 3, so the spec's half-octave tie case is vacuous
and the chosen shift is a minimal-magnitude one), its circular scale
distance from `p` is minimal among the chord's pitch classes, and
`nearest` is idempotent. -/
theorem nearest_minimal_idempotent (l : List ℤ) (hl : l ≠ []) (p : ℤ) :
    (∃ q ∈ normPitches l, (nearest (normPitches l) p - q) % 7 = 0) ∧
      |nearest (normPitches l) p - p| ≤ 3 ∧
      (∀ q ∈ normPitches l,
        circDist (nearest (normPitches l) p) p ≤ circDist q p) ∧
      nearest (normPitches l) (nearest (normPitches l) p) =
        nearest (normPitches l) p :=
  nearest_spec (isChord_normPitches hl) p

/-- Witness for C5: the C-major triad `{1,3,5}` probed at pitch 7 (the
nearest chord tone is the root an octave up, pitch 8). -/
theorem nearest_minimal_idempotent_witness :
    (∃ q ∈ normPitches [1, 3, 5],
        (nearest (normPitches [1, 3, 5]) 7 - q) % 7 = 0) ∧
      |nearest (normPitches [1, 3, 5]) 7 - 7| ≤ 3 ∧
      (∀ q ∈ normPitches [1, 3, 5],
        circDist (nearest (normPitches [1, 3, 5]) 7) 7 ≤ circDist q 7) ∧
      nearest (normPitches [1, 3, 5]) (nearest (normPitches [1, 3, 5]) 7) =
        nearest (normPitches [1, 3, 5]) 7 :=
  nearest_minimal_idempotent [1, 3, 5] (by decide) 7

/-- `music.Chord._next_pitch`: snap `previous` to the nearest chord tone,
then step `change` positions through the interval cycle, adding an octave
per wrap (`//` is Python floor division, `%` the nonnegative remainder). -/
def _next_pitch (c : List ℤ) (previous change : ℤ) : ℤ :=
  let prev0 := nearest c previous
  let deltas := scale_intervals c
  let prev := (prev0 - c.headI) % 7
  let prev_ix : ℤ := (deltas.indexOf prev : ℕ)
  let octs := (prev_ix + change).fdiv deltas.length
  deltas.getD ((prev_ix + change) % deltas.length).toNat 0 + prev0 - prev +
    7 * octs

/-- The pitch-selection step of `Progression.skeleton` (music.py lines
740–744): compute `_next_pitch(pre, itv)`; when the result is too high,
recompute with `-+itv` (the sign flipped); when it is too low, recompute
with `+itv` — the sign NOT flipped, so the recomputation returns the same
out-of-range pitch. -/
def skeleton_pick (chd : List ℤ) (pre next_interval min_pitch max_pitch : ℤ) :
    ℤ :=
  let note := _next_pitch chd pre next_interval
  if max_pitch < note then _next_pitch chd pre (-next_interval)
  else if note < min_pitch then _next_pitch chd pre next_interval
  else note

/-- C4 (code bug): in `Progression.skeleton`, on the C-major chord with
`pre = 1`, drawn interval `-1` and range `[1, 11]`, `_next_pitch` yields
`-2 < min_pitch`; the too-low branch recomputes with `+next_interval`
(not `-+next_interval` as the too-high branch does), which returns `-2`
again, whereas the claimed sign-flipped recomputation would give 3. -/
theorem skeleton_too_low_not_flipped :
    skeleton_pick (normPitches [1, 3, 5]) 1 (-1) 1 11 = -2 ∧
      (-2 : ℤ) < 1 ∧
      _next_pitch (normPitches [1, 3, 5]) 1 (-(-1)) = 3 := by
  refine ⟨by decide, by decide, by decide⟩

/-- A Python dict key as used in `util.Biases`: order-0 tables are keyed
by bare condition elements, deeper tables by tuples. -/
inductive PyKey where
  | int (z : ℤ)
  | tup (l : List ℤ)
  deriving DecidableEq, Repr

/-- Association-list lookup (Python `d[k]` / `k in d`). -/
def alookup {κ β : Type} [DecidableEq κ] : List (κ × β) → κ → Option β
  | [], _ => none
  | (k', v) :: t, k => if k = k' then some v else alookup t k

/-- Association-list store (Python `d[k] = v`): overwrite in place, or
append at the end — insertion order is preserved as in a Python dict. -/
def aset {κ β : Type} [DecidableEq κ] : List (κ × β) → κ → β → List (κ × β)
  | [], k, v => [(k, v)]
  | (k', v') :: t, k, v =>
    if k = k' then (k, v) :: t else (k', v') :: aset t k v

/-- An order table of `util.Biases` (conditions ↦ outcome-weight rows),
with integer outcomes and rational weights. -/
abbrev BiasTable : Type := List (PyKey × List (ℤ × ℚ))

/-- The buggy blending loop of `util.Biases.get` (util.py lines 69–70):
`for k, b in self.biases` iterates over `self.biases` — the LIST OF ORDER
TABLES — and unpacks each table (a dict of conditions) as if it were an
outcome/weight pair.  Unpacking a dict yields its keys: a table with a
number of conditions other than two raises `ValueError`; with exactly two,
`k` and `b` are CONDITION keys, and `probs[k] += b * deg / total / sm`
then looks up `probs[k]` (KeyError unless `probs` is the defaultdict
created by the order-0 branch), multiplies `b` (TypeError if it is a
tuple key) and divides by `total` and `sm` (ZeroDivisionError if zero). -/
def buggyLoop (probs : List (PyKey × ℚ)) (flag : Bool) (sm deg total : ℚ) :
    List BiasTable → Except PyErr (List (PyKey × ℚ))
  | [] => .ok probs
  | t :: rest =>
    match t.map Prod.fst with
    | [k, b] =>
      let old? := alookup probs k
      match old?, flag with
      | none, false => .error .keyError
      | _, _ =>
        match b with
        | .tup _ => .error .typeError
        | .int bv =>
          if total = 0 then .error .zeroDivisionError
          else if sm = 0 then .error .zeroDivisionError
          else
            let v := (bv : ℚ) * deg / total / sm
            match old? with
            | some old => buggyLoop (aset probs k (old + v)) flag sm deg total rest
            | none => buggyLoop (probs ++ [(k, v)]) flag sm deg total rest
    | _ => .error .valueError

/-- `util.Biases.get`, main loop over `enumerate(cond[::-1])`.  State:
`probs` is the blended distribution built so far (`flag` records whether
it is the defaultdict installed by the order-0 branch), `hist` the history
suffix seen so far, `total` the cumulative degradation weight.  Returns
the final `probs`, from which `choices(keys, bias)` draws. -/
def Biases_get_go (bs : List BiasTable) (deg_rate : ℕ → ℚ) :
    List ℤ → ℕ → List (PyKey × ℚ) → Bool → List ℤ → ℚ →
    Except PyErr (List (PyKey × ℚ))
  | [], _, probs, _, _, _ => .ok probs
  | e :: rest, i, probs, flag, hist, total =>
    let hist' := e :: hist
    match (if i = 0 then alookup (bs.getD 0 []) (.int e) else none) with
    | some row =>
      let sm := (row.map Prod.snd).sum
      if sm = 0 then .error .zeroDivisionError
      else
        Biases_get_go bs deg_rate rest (i + 1)
          (row.map (fun kv => (PyKey.int kv.1, kv.2 / sm))) true hist'
          (deg_rate 0)
    | none =>
      if bs.length ≤ i then .ok probs
      else
        match alookup (bs.getD i []) (.tup hist') with
        | none => Biases_get_go bs deg_rate rest (i + 1) probs flag hist' total
        | some row =>
          let sm := (row.map Prod.snd).sum
          let deg := deg_rate i
          if probs ≠ [] ∧ total + deg = 0 then .error .zeroDivisionError
          else
            match buggyLoop
                (probs.map (fun kv => (kv.1, kv.2 * (total / (total + deg)))))
                flag sm deg (total + deg) bs with
            | .error err => .error err
            | .ok probs2 =>
              Biases_get_go bs deg_rate rest (i + 1) probs2 flag hist'
                (total + deg)

/-- `util.Biases.get`: the deterministic part, returning the final
distribution `probs` from which `choices(keys, bias)` then draws. -/
def Biases_get (bs : List BiasTable) (cond : List ℤ) (deg_rate : ℕ → ℚ) :
    Except PyErr (List (PyKey × ℚ)) :=
  Biases_get_go bs deg_rate cond.reverse 0 [] false [] 0

/-- `util.Biases.add_bias`: appends empty order tables up to
`len(cond)`, then stores via `self.biases[len(cond)-1][key][bias] =
weight`.  The inner lookup `self.biases[...][key]` is on a plain dict, so
an unrecorded condition key raises `KeyError`. -/
def Biases_add_bias (bs : List BiasTable) (bias : ℤ) (weight : ℚ)
    (cond : List ℤ) : Except PyErr (List BiasTable) :=
  let bs' := bs ++ List.replicate (cond.length - bs.length) ([] : BiasTable)
  if 1 < cond.length then
    match alookup (bs'.getD (cond.length - 1) []) (.tup cond) with
    | none => .error .keyError
    | some row =>
      .ok (bs'.set (cond.length - 1)
        (aset (bs'.getD (cond.length - 1) []) (.tup cond)
          (aset row bias weight)))
  else
    match cond with
    | [] => .error .indexError
    | c0 :: _ =>
      match alookup (bs'.getD 0 []) (.int c0) with
      | none => .error .keyError
      | some row =>
        .ok (bs'.set 0 (aset (bs'.getD 0 []) (.int c0) (aset row bias weight)))

/-- C1 (code bug): on a sampler holding an order-0 row `{1: {10: 1}}` and
an order-1 row `{(0,1): {20: 1}}`, `get(0, 1)` matches both rows, but the
blending loop `for k, b in self.biases` unpacks the order-0 table (one
key) and raises `ValueError`; the outcome 20, recorded only in the deeper
row (second conjunct), is never returned — no blending ever happens. -/
theorem Biases_get_blend_crashes :
    Biases_get [[(.int 1, [(10, 1)])], [(.tup [0, 1], [(20, 1)])]] [0, 1]
        (fun _ => 1) = .error .valueError ∧
      alookup (([[(.int 1, [(10, 1)])],
          [(.tup [0, 1], [(20, 1)])]].getD 1 []) : List (PyKey × List (ℤ × ℚ)))
        (.tup [0, 1]) = some [(20, 1)] := by
  constructor
  · norm_num [Biases_get, Biases_get_go, buggyLoop, alookup]
  · rfl

/-- C2 (code bug): on a freshly constructed sampler (`Biases()`, a single
empty plain-dict order table), `add_bias(5, 10, 1)` raises `KeyError`
instead of recording the weight, because `self.biases[0][1]` is looked up
on a plain dict before assignment; had the row been recorded (second
conjunct, a sampler constructed with `{1: {5: 10}}`), `get(1)` would
produce the single-outcome distribution `{5: 1.0}`, i.e. return 5 with
probability 1. -/
theorem Biases_add_bias_keyError :
    Biases_add_bias [[]] 5 10 [1] = .error .keyError ∧
      Biases_get [[(.int 1, [(5, 10)])]] [1] (fun _ => 1) =
        .ok [(.int 5, 1)] := by
  constructor
  · rfl
  · norm_num [Biases_get, Biases_get_go, buggyLoop, alookup]

/-- The outcomes of positive weight in a row — exactly the values
`random.choices(keys, bias)` can return. -/
def rowSupport {α : Type} (row : List (α × ℚ)) : List α :=
  (row.filter fun e => 0 < e.2).map Prod.fst

/-- `util.Biases.get` specialized to a single-element condition over a
table populated at order 0 only — the only way `refine`, `skeleton` and
`old_skeleton` call it (`breaks.get(r)`, `ryths.get(rem)`,
`chd_len.get(beat)`, `interval.get(*intervals)` with the default tables).
On that path `get` builds `probs` by normalizing the single matching row
and `choices` returns an outcome of positive weight (`IndexError` for a
missing row — `choices` on empty `keys` — and `ValueError` for a zero
weight total); `pick` selects which supported outcome the random source
produces. -/
def biasGet {κ α : Type} [DecidableEq κ]
    (table : List (κ × List (α × ℚ))) (cnd : κ) (pick : ℕ) : Except PyErr α :=
  match alookup table cnd with
  | none => .error .indexError
  | some row =>
    match rowSupport row with
    | [] => .error .valueError
    | v :: vs => .ok ((v :: vs).getD (pick % (vs.length + 1)) v)

theorem alookup_mem {κ β : Type} [DecidableEq κ] :
    ∀ {t : List (κ × β)} {c : κ} {row : β},
      alookup t c = some row → (c, row) ∈ t := by
  intro t
  induction t with
  | nil => intro c row h; cases h
  | cons hd tl ih =>
    intro c row h
    obtain ⟨k', v⟩ := hd
    rw [alookup] at h
    by_cases hc : c = k'
    · rw [if_pos hc] at h
      cases h
      subst hc
      exact List.mem_cons_self _ _
    · rw [if_neg hc] at h
      exact List.mem_cons_of_mem _ (ih h)

theorem rowSupport_subset {α : Type} {row : List (α × ℚ)} {v : α}
    (h : v ∈ rowSupport row) : v ∈ row.map Prod.fst := by
  simp only [rowSupport, List.mem_map] at h ⊢
  obtain ⟨e, he, rfl⟩ := h
  exact ⟨e, (List.mem_filter.1 he).1, rfl⟩

theorem biasGet_ok_mem {κ α : Type} [DecidableEq κ]
    {table : List (κ × List (α × ℚ))} {cnd : κ} {pick : ℕ} {v : α}
    (h : biasGet table cnd pick = .ok v) :
    ∃ row, (cnd, row) ∈ table ∧ v ∈ row.map Prod.fst := by
  rw [biasGet] at h
  rcases hlk : alookup table cnd with _ | row
  · rw [hlk] at h; cases h
  · rw [hlk] at h
    simp only at h
    rcases hsup : rowSupport row with _ | ⟨v0, vs⟩
    · rw [hsup] at h; cases h
    · rw [hsup] at h
      cases h
      refine ⟨row, alookup_mem hlk, rowSupport_subset ?_⟩
      rw [hsup]
      have hlt : pick % (vs.length + 1) < (v0 :: vs).length := by
        simp [Nat.mod_lt _ (Nat.succ_pos _)]
      rw [List.getD_eq_getElem _ _ hlt]
      exact List.getElem_mem hlt

/-- `music.BREAKS`: the rhythm-splitting table (condition: token being
broken; outcomes: two-token replacements). -/
def BREAKS : List (Char × List (List Char × ℚ)) :=
  [('w', [(['h', 'h'], 1), (['H', 'q'], 1)]),
   ('H', [(['h', 'q'], 1)]),
   ('h', [(['q', 'q'], 4), (['Q', 'e'], 1)]),
   ('Q', [(['q', 'e'], 1)]),
   ('q', [(['e', 'e'], 9), (['E', 's'], 1)]),
   ('E', [(['e', 's'], 1)]),
   ('e', [(['s', 's'], 1)]),
   ('s', [(['G', 'G'], 1)]),
   ('G', [(['G', 'g'], 1)]),
   ('g', [(['g', 'g'], 1)])]

/-- `music.RYTH` with scaled (×24) beat conditions: beats remaining in the
measure ↦ weighted rhythm strings. -/
def RYTH : List (ℤ × List (List Char × ℚ)) :=
  [(24, [(['q'], 4), ([' '], 1/4)]),
   (48, [(['q'], 27), (['h'], 9), ([' '], 1/4)]),
   (72, [(['q'], 12), (['h'], 4), (['H'], 6), ([' '], 1/4)]),
   (96, [(['q'], 12), (['h'], 6), (['H'], 2), (['w'], 1), ([' '], 1/4)])]

/-- `music.CHD_LEN` with scaled (×24) conditions and outcomes: beat of the
measure ↦ chord length (always 4 beats = 96). -/
def CHD_LEN : List (ℤ × List (ℤ × ℚ)) :=
  [(0, [(96, 1)]), (24, [(96, 1)]), (48, [(96, 1)]), (72, [(96, 1)]),
   (96, [(96, 1)])]

/-- `music.INTERVALS`: previous interval ↦ weighted next intervals. -/
def INTERVALS : List (ℤ × List (ℤ × ℚ)) :=
  [(0, [(0, 1), (1, 1), (-1, 1)]), (1, [(0, 3), (1, 3), (-1, 4)]),
   (-1, [(0, 3), (1, 4), (-1, 3)])]

theorem BREAKS_rows : ∀ p ∈ BREAKS, ∀ v ∈ p.2.map Prod.fst,
    duration v = NOTE_LENS p.1 ∧ count_notes v = 2 := by decide

theorem RYTH_rows : ∀ p ∈ RYTH, ∀ v ∈ p.2.map Prod.fst, v.length = 1 := by
  decide

theorem breaks_get_ok {r : Char} {pick : ℕ} {v : List Char}
    (h : biasGet BREAKS r pick = .ok v) :
    duration v = NOTE_LENS r ∧ count_notes v = 2 := by
  obtain ⟨row, hrow, hv⟩ := biasGet_ok_mem h
  exact BREAKS_rows (r, row) hrow v hv

theorem ryth_get_ok {rem : ℤ} {pick : ℕ} {v : List Char}
    (h : biasGet RYTH rem pick = .ok v) : v.length = 1 := by
  obtain ⟨row, hrow, hv⟩ := biasGet_ok_mem h
  exact RYTH_rows (rem, row) hrow v hv

/-- The rest→note substitution of the `end_tonic` branch of
`Part.refine`: `"qsewh"[" ,.-_".index(c)]`. -/
def restSubst (c : Char) : Char :=
  ['q', 's', 'e', 'w', 'h'].getD (([' ', ',', '.', '-', '_']).indexOf c) 'q'

theorem restSubst_dur {c : Char} (h : isRest c = true) :
    NOTE_LENS (restSubst c) = NOTE_LENS c ∧ isRest (restSubst c) = false := by
  have h2 : c ∈ [' ', '_', '-', ',', '.'] := by simpa [isRest] using h
  fin_cases h2 <;> exact ⟨rfl, rfl⟩

theorem duration_cons (a : Char) (t : List Char) :
    duration (a :: t) = NOTE_LENS a + duration t := by
  simp [duration]

theorem count_notes_cons (a : Char) (t : List Char) :
    count_notes (a :: t) =
      (if isRest a then 0 else 1) + count_notes t := by
  simp [count_notes]

theorem drop_eq_getD_cons {l : List Char} {i : ℕ} (hi : i < l.length) :
    l.drop i = l.getD i ' ' :: l.drop (i + 1) := by
  rw [List.getD_eq_getElem _ _ hi]
  exact List.drop_eq_getElem_cons hi

theorem duration_splice {l : List Char} {i : ℕ} (hi : i < l.length)
    (m : List Char) :
    duration (l.take i ++ m ++ l.drop (i + 1)) =
      duration l - NOTE_LENS (l.getD i ' ') + duration m := by
  have h1 : duration l = duration (l.take i) + NOTE_LENS (l.getD i ' ') +
      duration (l.drop (i + 1)) := by
    conv_lhs => rw [← List.take_append_drop i l]
    rw [duration_append, drop_eq_getD_cons hi, duration_cons]
    ring
  rw [duration_append, duration_append, h1]
  ring

theorem count_notes_splice {l : List Char} {i : ℕ} (hi : i < l.length)
    (m : List Char) :
    count_notes (l.take i ++ m ++ l.drop (i + 1)) =
      count_notes l - (if isRest (l.getD i ' ') then 0 else 1) +
        count_notes m := by
  have h1 : count_notes l = count_notes (l.take i) +
      (if isRest (l.getD i ' ') then 0 else 1) +
      count_notes (l.drop (i + 1)) := by
    conv_lhs => rw [← List.take_append_drop i l]
    rw [count_notes_append, drop_eq_getD_cons hi, count_notes_cons]
    ring
  rw [count_notes_append, count_notes_append, h1]
  ring

theorem duration_dropLast {l : List Char} {rc : Char}
    (h : l.getLast? = some rc) (m : List Char) :
    duration (l.dropLast ++ m) = duration l - NOTE_LENS rc + duration m := by
  have hne : l ≠ [] := by
    intro he
    rw [he] at h
    cases h
  have hlast : l.getLast hne = rc := by
    rwa [List.getLast?_eq_getLast l hne, Option.some_inj] at h
  conv_rhs => rw [← List.dropLast_append_getLast hne]
  rw [hlast, duration_append, duration_append]
  simp [duration]

theorem count_notes_dropLast {l : List Char} {rc : Char}
    (h : l.getLast? = some rc) (m : List Char) :
    count_notes (l.dropLast ++ m) =
      count_notes l - (if isRest rc then 0 else 1) + count_notes m := by
  have hne : l ≠ [] := by
    intro he
    rw [he] at h
    cases h
  have hlast : l.getLast hne = rc := by
    rwa [List.getLast?_eq_getLast l hne, Option.some_inj] at h
  conv_rhs => rw [← List.dropLast_append_getLast hne]
  rw [hlast, count_notes_append, count_notes_append]
  simp [count_notes]

/-- The `end_tonic` epilogue of `music.Part.refine` (lines 421–433): when
the last pitch is not a tonic, substitute the last rhythm token (a fixed
rest→note substitution for a rest, a `breaks` split otherwise) and append
the nearest tonic.  Indexing an empty `notes`/`rhythms` raises
`IndexError` as `ref.notes[-1]`/`ref.rhythms[-1]` do. -/
def refineEnd (orp : ℕ → ℕ) (end_tonic : Bool) (notes : List ℤ)
    (ryth : List Char) (t : ℕ) : Except PyErr (List ℤ × List Char) :=
  if end_tonic then
    match notes.getLast? with
    | none => .error .indexError
    | some lastN =>
      if (lastN - 1) % 7 = 0 then .ok (notes, ryth)
      else
        let last := (lastN - 1) % 7
        let near := if last < 4 then lastN - last else lastN - last + 7
        match ryth.getLast? with
        | none => .error .indexError
        | some rc =>
          if isRest rc then
            .ok (notes ++ [near], ryth.dropLast ++ [restSubst rc])
          else
            match biasGet BREAKS rc (orp t) with
            | .error e => .error e
            | .ok br => .ok (notes ++ [near], ryth.dropLast ++ br)
  else .ok (notes, ryth)

/-- `music.Part.refine`, main loop (lines 367–420), on a part
`(notes, ryth)`.  `reps`/`steps`/`leaps` are the running counters,
`note_num` the index of the next note, `i` the scan position.  The
threshold tests `random() < pass_func(...)` / `random() < aux_func(...)`
and the direction test `random() > 0.5` are drawn from the Boolean oracle
`orb`, the `breaks.get` choice from the pick oracle `orp` (`t` counts the
draws); the claims proved below hold for every oracle, i.e. for every
outcome of the random draws. -/
def refineGo (orb : ℕ → Bool) (orp : ℕ → ℕ) (end_tonic : Bool) :
    ℕ → List ℤ → List Char → ℕ → ℕ → ℕ → ℕ → ℕ → ℕ →
    Except PyErr (List ℤ × List Char)
  | 0, _, _, _, _, _, _, _, _ => .error .fuelExhausted
  | fuel + 1, notes, ryth, reps, steps, leaps, note_num, i, t =>
    if i < ryth.length then
      let r := ryth.getD i ' '
      if notes.length ≤ note_num + 1 then refineEnd orp end_tonic notes ryth t
      else if isRest r then
        refineGo orb orp end_tonic fuel notes ryth reps steps leaps note_num
          (i + 1) t
      else
        let n := notes.getD note_num 0
        let note_num' := note_num + 1
        let nxt := notes.getD note_num' 0
        if n = nxt then
          if orb t then
            let aux := if orb (t + 1) then n + 1 else n - 1
            match biasGet BREAKS r (orp (t + 2)) with
            | .error e => .error e
            | .ok br =>
              refineGo orb orp end_tonic fuel (notes.insertIdx note_num' aux)
                (ryth.take i ++ br ++ ryth.drop (i + 1)) 1 steps leaps
                note_num' (i + 1) (t + 3)
          else
            refineGo orb orp end_tonic fuel notes ryth (reps + 1) steps leaps
              note_num' (i + 1) (t + 1)
        else if 1 < |n - nxt| then
          if orb t then
            match biasGet BREAKS r (orp (t + 1)) with
            | .error e => .error e
            | .ok br =>
              refineGo orb orp end_tonic fuel
                (notes.insertIdx note_num' (if nxt < n then n - 1 else n + 1))
                (ryth.take i ++ br ++ ryth.drop (i + 1)) 0 (steps + 1) leaps
                note_num' (i + 1) (t + 2)
          else
            refineGo orb orp end_tonic fuel notes ryth 0 steps (leaps + 1)
              note_num' (i + 1) (t + 1)
        else
          refineGo orb orp end_tonic fuel notes ryth 0 (steps + 1) leaps
            note_num' (i + 1) t
    else refineEnd orp end_tonic notes ryth t

/-- `music.Part.refine` with the default `breaks=BREAKS`. -/
def Part_refine (orb : ℕ → Bool) (orp : ℕ → ℕ) (end_tonic : Bool)
    (notes : List ℤ) (ryth : List Char) (fuel : ℕ) :
    Except PyErr (List ℤ × List Char) :=
  refineGo orb orp end_tonic fuel notes ryth 0 0 0 0 0 0

theorem refineEnd_duration {orp : ℕ → ℕ} {end_tonic : Bool} {notes : List ℤ}
    {ryth : List Char} {t : ℕ} {out : List ℤ × List Char}
    (h : refineEnd orp end_tonic notes ryth t = .ok out) :
    duration out.2 = duration ryth := by
  rw [refineEnd] at h
  by_cases het : end_tonic = true
  · rw [if_pos het] at h
    rcases hlast : notes.getLast? with _ | lastN
    · rw [hlast] at h; cases h
    · rw [hlast] at h
      simp only at h
      by_cases hton : (lastN - 1) % 7 = 0
      · rw [if_pos hton] at h
        cases h
        rfl
      · rw [if_neg hton] at h
        rcases hrc : ryth.getLast? with _ | rc
        · rw [hrc] at h; cases h
        · rw [hrc] at h
          simp only at h
          by_cases hrest : isRest rc = true
          · rw [if_pos hrest] at h
            cases h
            show duration (ryth.dropLast ++ [restSubst rc]) = duration ryth
            rw [duration_dropLast hrc]
            have hd := (restSubst_dur hrest).1
            simp [duration, hd]
          · rw [if_neg hrest] at h
            rcases hbr : biasGet BREAKS rc (orp t) with e | br
            · rw [hbr] at h; cases h
            · rw [hbr] at h
              simp only at h
              cases h
              show duration (ryth.dropLast ++ br) = duration ryth
              rw [duration_dropLast hrc]
              have hd := (breaks_get_ok hbr).1
              omega
  · rw [if_neg het] at h
    cases h
    rfl

theorem refineGo_duration (orb : ℕ → Bool) (orp : ℕ → ℕ) (end_tonic : Bool) :
    ∀ (fuel : ℕ) (notes : List ℤ) (ryth : List Char)
      (reps steps leaps note_num i t : ℕ) (out : List ℤ × List Char),
      refineGo orb orp end_tonic fuel notes ryth reps steps leaps note_num
        i t = .ok out →
      duration out.2 = duration ryth := by
  intro fuel
  induction fuel with
  | zero =>
    intro notes ryth reps steps leaps note_num i t out h
    simp only [refineGo] at h
    cases h
  | succ fuel ih =>
    intro notes ryth reps steps leaps note_num i t out h
    simp only [refineGo] at h
    by_cases hir : i < ryth.length
    · rw [if_pos hir] at h
      by_cases hnn : notes.length ≤ note_num + 1
      · rw [if_pos hnn] at h
        exact refineEnd_duration h
      · rw [if_neg hnn] at h
        by_cases hrest : isRest (ryth.getD i ' ') = true
        · simp only [hrest, if_true] at h
          exact ih _ _ _ _ _ _ _ _ _ h
        · simp only [hrest, if_false, Bool.false_eq_true] at h
          by_cases heq : notes.getD note_num 0 = notes.getD (note_num + 1) 0
          · rw [if_pos heq] at h
            by_cases hot : orb t = true
            · simp only [hot, if_true] at h
              rcases hbr : biasGet BREAKS (ryth.getD i ' ') (orp (t + 2))
                with e | br
              · rw [hbr] at h; cases h
              · rw [hbr] at h
                simp only at h
                have hd := ih _ _ _ _ _ _ _ _ _ h
                rw [hd, duration_splice hir br]
                have hb := (breaks_get_ok hbr).1
                omega
            · simp only [hot, if_false, Bool.false_eq_true] at h
              exact ih _ _ _ _ _ _ _ _ _ h
          · rw [if_neg heq] at h
            by_cases hlp : 1 < |notes.getD note_num 0 -
                notes.getD (note_num + 1) 0|
            · rw [if_pos hlp] at h
              by_cases hot : orb t = true
              · simp only [hot, if_true] at h
                rcases hbr : biasGet BREAKS (ryth.getD i ' ') (orp (t + 1))
                  with e | br
                · rw [hbr] at h; cases h
                · rw [hbr] at h
                  simp only at h
                  have hd := ih _ _ _ _ _ _ _ _ _ h
                  rw [hd, duration_splice hir br]
                  have hb := (breaks_get_ok hbr).1
                  omega
              · simp only [hot, if_false, Bool.false_eq_true] at h
                exact ih _ _ _ _ _ _ _ _ _ h
            · rw [if_neg hlp] at h
              exact ih _ _ _ _ _ _ _ _ _ h
    · rw [if_neg hir] at h
      exact refineEnd_duration h

/-- C3: for every part whose rhythm tokens are splittable (each token is
in the break table's domain or is a rest) and every outcome of the random
draws, `Part.refine` (when it returns) returns a part of the same total
rhythm duration: token splits preserve duration and the end-tonic rest
substitution swaps a rest for a note token of equal duration. -/
theorem refine_preserves_duration (orb : ℕ → Bool) (orp : ℕ → ℕ)
    (end_tonic : Bool) (notes : List ℤ) (ryth : List Char) (fuel : ℕ)
    (out : List ℤ × List Char)
    (htok : ∀ ch ∈ ryth, ch ∈ BREAKS.map Prod.fst ∨ isRest ch = true)
    (h : Part_refine orb orp end_tonic notes ryth fuel = .ok out) :
    duration out.2 = duration ryth :=
  refineGo_duration orb orp end_tonic fuel notes ryth 0 0 0 0 0 0 out h

/-- Witness for C3: refining the one-note part `([1], "q")` returns it
unchanged (the scan stops with one note left and pitch 1 is the tonic). -/
theorem refine_preserves_duration_witness :
    (∀ ch ∈ (['q'] : List Char),
        ch ∈ BREAKS.map Prod.fst ∨ isRest ch = true) ∧
      duration (([1], ['q']) : List ℤ × List Char).2 = duration ['q'] :=
  ⟨by decide, refine_preserves_duration (fun _ => false) (fun _ => 0) true
    [1] ['q'] 1 ([1], ['q']) (by decide) (by rfl)⟩

theorem refineEnd_count {orp : ℕ → ℕ} {end_tonic : Bool} {notes : List ℤ}
    {ryth : List Char} {t : ℕ} {out : List ℤ × List Char}
    (hinv : count_notes ryth = notes.length)
    (h : refineEnd orp end_tonic notes ryth t = .ok out) :
    count_notes out.2 = out.1.length := by
  rw [refineEnd] at h
  by_cases het : end_tonic = true
  · rw [if_pos het] at h
    rcases hlast : notes.getLast? with _ | lastN
    · rw [hlast] at h; cases h
    · rw [hlast] at h
      simp only at h
      by_cases hton : (lastN - 1) % 7 = 0
      · rw [if_pos hton] at h
        cases h
        exact hinv
      · rw [if_neg hton] at h
        rcases hrc : ryth.getLast? with _ | rc
        · rw [hrc] at h; cases h
        · rw [hrc] at h
          simp only at h
          by_cases hrest : isRest rc = true
          · rw [if_pos hrest] at h
            cases h
            show count_notes (ryth.dropLast ++ [restSubst rc]) =
              (notes ++ [_]).length
            rw [count_notes_dropLast hrc]
            have hns := (restSubst_dur hrest).2
            have h1 : count_notes [restSubst rc] = 1 := by
              simp [count_notes, hns]
            rw [h1, if_pos hrest]
            simp only [List.length_append, List.length_singleton]
            push_cast
            omega
          · rw [if_neg hrest] at h
            rcases hbr : biasGet BREAKS rc (orp t) with e | br
            · rw [hbr] at h; cases h
            · rw [hbr] at h
              simp only at h
              cases h
              show count_notes (ryth.dropLast ++ br) = (notes ++ [_]).length
              rw [count_notes_dropLast hrc]
              have hb := (breaks_get_ok hbr).2
              rw [if_neg hrest, hb]
              simp only [List.length_append, List.length_singleton]
              push_cast
              omega
  · rw [if_neg het] at h
    cases h
    exact hinv

theorem refineGo_count (orb : ℕ → Bool) (orp : ℕ → ℕ) (end_tonic : Bool) :
    ∀ (fuel : ℕ) (notes : List ℤ) (ryth : List Char)
      (reps steps leaps note_num i t : ℕ) (out : List ℤ × List Char),
      count_notes ryth = notes.length →
      refineGo orb orp end_tonic fuel notes ryth reps steps leaps note_num
        i t = .ok out →
      count_notes out.2 = out.1.length := by
  intro fuel
  induction fuel with
  | zero =>
    intro notes ryth reps steps leaps note_num i t out hinv h
    simp only [refineGo] at h
    cases h
  | succ fuel ih =>
    intro notes ryth reps steps leaps note_num i t out hinv h
    simp only [refineGo] at h
    by_cases hir : i < ryth.length
    · rw [if_pos hir] at h
      by_cases hnn : notes.length ≤ note_num + 1
      · rw [if_pos hnn] at h
        exact refineEnd_count hinv h
      · rw [if_neg hnn] at h
        by_cases hrest : isRest (ryth.getD i ' ') = true
        · simp only [hrest, if_true] at h
          exact ih _ _ _ _ _ _ _ _ _ hinv h
        · simp only [hrest, if_false, Bool.false_eq_true] at h
          by_cases heq : notes.getD note_num 0 = notes.getD (note_num + 1) 0
          · rw [if_pos heq] at h
            by_cases hot : orb t = true
            · simp only [hot, if_true] at h
              rcases hbr : biasGet BREAKS (ryth.getD i ' ') (orp (t + 2))
                with e | br
              · rw [hbr] at h; cases h
              · rw [hbr] at h
                simp only at h
                refine ih _ _ _ _ _ _ _ _ _ ?_ h
                rw [count_notes_splice hir br, if_neg hrest,
                  (breaks_get_ok hbr).2,
                  List.length_insertIdx _ _ (by omega)]
                push_cast
                omega
            · simp only [hot, if_false, Bool.false_eq_true] at h
              exact ih _ _ _ _ _ _ _ _ _ hinv h
          · rw [if_neg heq] at h
            by_cases hlp : 1 < |notes.getD note_num 0 -
                notes.getD (note_num + 1) 0|
            · rw [if_pos hlp] at h
              by_cases hot : orb t = true
              · simp only [hot, if_true] at h
                rcases hbr : biasGet BREAKS (ryth.getD i ' ') (orp (t + 1))
                  with e | br
                · rw [hbr] at h; cases h
                · rw [hbr] at h
                  simp only at h
                  refine ih _ _ _ _ _ _ _ _ _ ?_ h
                  rw [count_notes_splice hir br, if_neg hrest,
                    (breaks_get_ok hbr).2,
                    List.length_insertIdx _ _ (by omega)]
                  push_cast
                  omega
              · simp only [hot, if_false, Bool.false_eq_true] at h
                exact ih _ _ _ _ _ _ _ _ _ hinv h
            · rw [if_neg hlp] at h
              exact ih _ _ _ _ _ _ _ _ _ hinv h
    · rw [if_neg hir] at h
      exact refineEnd_count hinv h

/-- First loop of `music.Chord.get_pitches` (lines 189–198): append chord
tones ascending until the adjusted `max_pitch` is reached or the
`repeat_mode` bits stop the climb; `mod` is recomputed at every octave
wrap. -/
def get_pitches_loop1 (pitches : List ℤ) (repeat_mode : ℕ) (maxP : ℤ) :
    ℕ → List ℤ → ℕ → ℤ → Except PyErr (List ℤ)
  | 0, _, _, _ => .error .fuelExhausted
  | fuel + 1, res, i, md =>
    if res.getLastD 0 < maxP then
      let i' := i + 1
      if repeat_mode &&& 3 = 0 ∧ i' = pitches.length then .ok res
      else if repeat_mode &&& 2 = 0 ∧ pitches.length < i' then .ok res
      else
        let md' := if i' % pitches.length = 0 then
            ((((pitches.headI - 1) % 7 - (res.getLastD 0 - 1) % 7) % 7) +
              res.getLastD 0) - pitches.headI
          else md
        get_pitches_loop1 pitches repeat_mode maxP fuel
          (res ++ [pitches.getD (i' % pitches.length) 0 + md']) i' md'
    else .ok res

/-- Second loop of `music.Chord.get_pitches` (lines 201–203): with
`repeat_mode & 3 == 3`, pop until the top tone is the root pitch class. -/
def get_pitches_loop2 (pitches : List ℤ) (repeat_mode : ℕ) :
    ℕ → List ℤ → Except PyErr (List ℤ)
  | 0, _ => .error .fuelExhausted
  | fuel + 1, res =>
    if repeat_mode &&& 3 = 3 then
      match res.getLast? with
      | none => .error .indexError
      | some lastv =>
        if lastv % 7 ≠ pitches.headI % 7 ∧ pitches.length < res.length then
          get_pitches_loop2 pitches repeat_mode fuel res.dropLast
        else .ok res
    else .ok res

/-- Third loop of `music.Chord.get_pitches` (lines 204–208): with bit 2 of
`repeat_mode` set, prepend tones below the bass while the lowest tone is
above `min_pitch` (`self.pitches[i]` with the Python negative index `i`,
equivalently index `i % len` for the nonnegative remainder). -/
def get_pitches_loop3 (pitches : List ℤ) (repeat_mode : ℕ)
    (min_pitch bass : ℤ) : ℕ → List ℤ → ℤ → Except PyErr (List ℤ)
  | 0, _, _ => .error .fuelExhausted
  | fuel + 1, res, i =>
    if repeat_mode &&& 4 ≠ 0 then
      match res.head? with
      | none => .error .indexError
      | some h0 =>
        if min_pitch < h0 then
          get_pitches_loop3 pitches repeat_mode min_pitch bass fuel
            ((pitches.getD ((i % (pitches.length : ℤ)).toNat) 0 + bass -
              pitches.headI - 7) :: res) ((i - 1) % (pitches.length : ℤ))
        else .ok res
    else .ok res

/-- `music.Chord.get_pitches`.  An empty pitch list would raise
`IndexError` at `self.pitches[0]`; the possibly-divergent while loops are
given fuel. -/
def get_pitches (pitches : List ℤ) (min_pitch max_pitch : ℤ)
    (repeat_mode : ℕ) (fuel : ℕ) : Except PyErr (List ℤ) :=
  if pitches.isEmpty then .error .indexError
  else
    let bass := (((pitches.headI - 1) % 7 - (min_pitch - 1) % 7) % 7) +
      min_pitch
    let md := bass - pitches.headI
    let maxP :=
      if repeat_mode &&& 3 = 0 then min max_pitch (pitches.getLastD 0 + md)
      else if repeat_mode &&& 3 = 1 then
        min max_pitch (((pitches.headI - pitches.getLastD 0) % 7) +
          pitches.getLastD 0 + md)
      else max_pitch
    match get_pitches_loop1 pitches repeat_mode maxP fuel [bass] 0 md with
    | .error e => .error e
    | .ok res1 =>
      let res2 := if maxP < res1.getLastD 0 then res1.dropLast else res1
      match get_pitches_loop2 pitches repeat_mode fuel res2 with
      | .error e => .error e
      | .ok res3 =>
        match get_pitches_loop3 pitches repeat_mode min_pitch bass fuel
            res3 (-1) with
        | .error e => .error e
        | .ok res4 =>
          match res4.head? with
          | none => .error .indexError
          | some h0 => .ok (if h0 < min_pitch then res4.tail else res4)

/-- `music.Progression.chord_background`, loop over the chords.  State:
`notesC` the list of voicings emitted so far (one entry per played token),
`ryth` the rhythm string, `reps` the cached count of played tokens per
rhythm pattern, `i` the position in the rhythm pattern cycle. -/
def chord_background_go (ryths : List (List Char)) (min_pitch max_pitch : ℤ)
    (repeat_mode : ℕ) (fuel : ℕ) :
    List (List ℤ) → List (List ℤ) → List Char → List ℕ → ℕ →
    Except PyErr (List (List ℤ) × List Char)
  | [], notesC, ryth, _, _ => .ok (notesC, ryth)
  | chd :: rest, notesC, ryth, reps, i =>
    match ryths[i]? with
    | none => .error .indexError
    | some ry =>
      let reps' := if reps.length ≤ i then
          reps ++ [(count_notes ry).toNat] else reps
      match get_pitches chd min_pitch max_pitch repeat_mode fuel with
      | .error e => .error e
      | .ok pcs =>
        chord_background_go ryths min_pitch max_pitch repeat_mode fuel rest
          (notesC ++ List.replicate (reps'.getD i 0) pcs) (ryth ++ ry) reps'
          ((i + 1) % ryths.length)

/-- `music.Progression.chord_background` on a list of chord pitch lists. -/
def Progression_chord_background (chords : List (List ℤ))
    (ryths : List (List Char)) (min_pitch max_pitch : ℤ) (repeat_mode : ℕ)
    (fuel : ℕ) : Except PyErr (List (List ℤ) × List Char) :=
  chord_background_go ryths min_pitch max_pitch repeat_mode fuel chords
    [] [] [] 0

/-- Inner `while rem:` loop of `music.Progression.skeleton` (lines
736–747): draw a rhythm token for the remaining beats, and for a played
token draw an interval and step to the next chord tone via
`skeleton_pick`.  All sampler draws go through `biasGet`; `orp` is the
random pick oracle and `t` the draw counter. -/
def skeletonInner (orp : ℕ → ℕ) (chd : List ℤ) (minP maxP : ℤ) :
    ℕ → ℤ → List ℤ → List Char → ℤ → List ℤ → ℕ →
    Except PyErr (List ℤ × List Char × ℤ × ℕ)
  | 0, _, _, _, _, _, _ => .error .fuelExhausted
  | fuel + 1, rem, notes, ryth, pre, hist, t =>
    if rem = 0 then .ok (notes, ryth, pre, t)
    else
      match biasGet RYTH rem (orp t) with
      | .error e => .error e
      | .ok tok =>
        let ryth' := ryth ++ tok
        if isRest (ryth'.getLastD ' ') then
          skeletonInner orp chd minP maxP fuel
            (rem - NOTE_LENS (ryth'.getLastD ' ')) notes ryth' pre hist
            (t + 1)
        else
          match biasGet INTERVALS (hist.getLastD 0) (orp (t + 1)) with
          | .error e => .error e
          | .ok itv =>
            skeletonInner orp chd minP maxP fuel
              (rem - NOTE_LENS (ryth'.getLastD ' '))
              (notes ++ [skeleton_pick chd pre itv minP maxP]) ryth'
              (skeleton_pick chd pre itv minP maxP) hist (t + 2)

/-- `music.Progression.skeleton`, loop over the chords: draw the chord
length from `CHD_LEN` conditioned on the current beat of the measure,
then fill it via `skeletonInner`. -/
def skeletonGo (orp : ℕ → ℕ) (meter minP maxP : ℤ) (fuel : ℕ) :
    List (List ℤ) → List ℤ → List Char → ℤ → List ℤ → ℕ →
    Except PyErr (List ℤ × List Char)
  | [], notes, ryth, _, _, _ => .ok (notes, ryth)
  | chd :: rest, notes, ryth, pre, hist, t =>
    match biasGet CHD_LEN (duration ryth % (24 * meter)) (orp t) with
    | .error e => .error e
    | .ok rem =>
      match skeletonInner orp chd minP maxP fuel rem notes ryth pre hist
          (t + 1) with
      | .error e => .error e
      | .ok (notes', ryth', pre', t') =>
        skeletonGo orp meter minP maxP fuel rest notes' ryth' pre' hist t'

/-- `music.Progression.skeleton` with the default samplers; `pre` starts
at the tonic at or above `min_pitch`, the interval history stays `[0]`
(the source never appends to it). -/
def Progression_skeleton (orp : ℕ → ℕ) (chords : List (List ℤ))
    (meter minP maxP : ℤ) (fuel : ℕ) :
    Except PyErr (List ℤ × List Char) :=
  skeletonGo orp meter minP maxP fuel chords [] []
    (minP + (7 - ((minP - 1) % 7)) % 7) [0] 0

theorem count_notes_nonneg (l : List Char) : 0 ≤ count_notes l := by
  induction l with
  | nil => simp [count_notes]
  | cons a t ih =>
    rw [count_notes_cons]
    split <;> omega

theorem chord_background_go_count (ryths : List (List Char))
    (min_pitch max_pitch : ℤ) (repeat_mode : ℕ) (fuel : ℕ) :
    ∀ (chords : List (List ℤ)) (notesC : List (List ℤ)) (ryth : List Char)
      (reps : List ℕ) (i : ℕ) (out : List (List ℤ) × List Char),
      count_notes ryth = notesC.length →
      (∀ j, j < reps.length →
        reps.getD j 0 = (count_notes (ryths.getD j [])).toNat) →
      i ≤ reps.length →
      chord_background_go ryths min_pitch max_pitch repeat_mode fuel chords
        notesC ryth reps i = .ok out →
      count_notes out.2 = out.1.length := by
  intro chords
  induction chords with
  | nil =>
    intro notesC ryth reps i out hinv _ _ h
    simp only [chord_background_go] at h
    cases h
    exact hinv
  | cons chd rest ih =>
    intro notesC ryth reps i out hinv hrep hi h
    simp only [chord_background_go] at h
    rcases hry : ryths[i]? with _ | ry
    · rw [hry] at h; cases h
    · rw [hry] at h
      simp only at h
      have hilt : i < ryths.length := by
        by_contra hc
        rw [List.getElem?_eq_none (by omega)] at hry
        cases hry
      have hryD : ryths.getD i [] = ry := by
        rw [List.getD_eq_getElem _ _ hilt]
        rw [List.getElem?_eq_getElem hilt] at hry
        exact Option.some_injective _ hry
      rcases hgp : get_pitches chd min_pitch max_pitch repeat_mode fuel
        with e | pcs
      · rw [hgp] at h; cases h
      · rw [hgp] at h
        simp only at h
        by_cases hcap : reps.length ≤ i
        · have hieq : i = reps.length := le_antisymm hi hcap
          rw [if_pos hcap] at h
          refine ih _ _ _ _ _ ?_ ?_ ?_ h
          · rw [count_notes_append, hinv, List.length_append,
              List.length_replicate]
            have hD : (reps ++ [(count_notes ry).toNat]).getD i 0 =
                (count_notes ry).toNat := by
              rw [hieq, List.getD_append_right _ _ _ _ (le_refl _)]
              simp
            rw [hD]
            have := count_notes_nonneg ry
            push_cast
            omega
          · intro j hj
            simp only [List.length_append, List.length_singleton] at hj
            rcases Nat.lt_or_ge j reps.length with hjl | hjl
            · rw [List.getD_append _ _ _ _ hjl]
              exact hrep j hjl
            · have hje : j = reps.length := by omega
              rw [hje, List.getD_append_right _ _ _ _ (le_refl _)]
              simp only [Nat.sub_self, List.getD_cons_zero]
              rw [← hieq, hryD]
          · calc (i + 1) % ryths.length ≤ i + 1 := Nat.mod_le _ _
              _ ≤ (reps ++ [(count_notes ry).toNat]).length := by
                simp [hieq]
        · rw [if_neg hcap] at h
          push_neg at hcap
          refine ih _ _ _ _ _ ?_ hrep ?_ h
          · rw [count_notes_append, hinv, List.length_append,
              List.length_replicate, hrep i hcap, hryD]
            have := count_notes_nonneg ry
            push_cast
            omega
          · calc (i + 1) % ryths.length ≤ i + 1 := Nat.mod_le _ _
              _ ≤ reps.length := hcap

theorem skeletonInner_count (orp : ℕ → ℕ) (chd : List ℤ) (minP maxP : ℤ) :
    ∀ (fuel : ℕ) (rem : ℤ) (notes : List ℤ) (ryth : List Char) (pre : ℤ)
      (hist : List ℤ) (t : ℕ) (out : List ℤ × List Char × ℤ × ℕ),
      count_notes ryth = notes.length →
      skeletonInner orp chd minP maxP fuel rem notes ryth pre hist t =
        .ok out →
      count_notes out.2.1 = out.1.length := by
  intro fuel
  induction fuel with
  | zero =>
    intro rem notes ryth pre hist t out hinv h
    simp only [skeletonInner] at h
    cases h
  | succ fuel ih =>
    intro rem notes ryth pre hist t out hinv h
    simp only [skeletonInner] at h
    by_cases hz : rem = 0
    · rw [if_pos hz] at h
      cases h
      exact hinv
    · rw [if_neg hz] at h
      rcases htok : biasGet RYTH rem (orp t) with e | tok
      · rw [htok] at h; cases h
      · rw [htok] at h
        simp only at h
        obtain ⟨c, rfl⟩ := List.length_eq_one.1 (ryth_get_ok htok)
        have hlast : (ryth ++ [c]).getLastD ' ' = c := by
          simp [List.getLastD_concat]
        rw [hlast] at h
        by_cases hrest : isRest c = true
        · rw [if_pos hrest] at h
          refine ih _ _ _ _ _ _ _ ?_ h
          rw [count_notes_append, hinv, count_notes_cons, hrest, if_pos rfl]
          simp [count_notes]
        · rw [if_neg hrest] at h
          rcases hitv : biasGet INTERVALS (hist.getLastD 0) (orp (t + 1))
            with e | itv
          · rw [hitv] at h; cases h
          · rw [hitv] at h
            simp only at h
            refine ih _ _ _ _ _ _ _ ?_ h
            rw [count_notes_append, hinv, count_notes_cons, if_neg hrest,
              List.length_append]
            simp [count_notes]

theorem skeletonGo_count (orp : ℕ → ℕ) (meter minP maxP : ℤ) (fuel : ℕ) :
    ∀ (chords : List (List ℤ)) (notes : List ℤ) (ryth : List Char)
      (pre : ℤ) (hist : List ℤ) (t : ℕ) (out : List ℤ × List Char),
      count_notes ryth = notes.length →
      skeletonGo orp meter minP maxP fuel chords notes ryth pre hist t =
        .ok out →
      count_notes out.2 = out.1.length := by
  intro chords
  induction chords with
  | nil =>
    intro notes ryth pre hist t out hinv h
    simp only [skeletonGo] at h
    cases h
    exact hinv
  | cons chd rest ih =>
    intro notes ryth pre hist t out hinv h
    simp only [skeletonGo] at h
    rcases hrem : biasGet CHD_LEN (duration ryth % (24 * meter)) (orp t)
      with e | rem
    · rw [hrem] at h; cases h
    · rw [hrem] at h
      simp only at h
      rcases hsi : skeletonInner orp chd minP maxP fuel rem notes ryth pre
        hist (t + 1) with e | q
      · rw [hsi] at h; cases h
      · rw [hsi] at h
        obtain ⟨notes', ryth', pre', t'⟩ := q
        simp only at h
        have hinv' : count_notes ryth' = notes'.length :=
          skeletonInner_count orp chd minP maxP fuel rem notes ryth pre
            hist (t + 1) (notes', ryth', pre', t') hinv hsi
        exact ih _ _ _ _ _ _ hinv' h

/-- C7: the invariant "number of non-rest rhythm tokens = number of note
entries" holds for every part produced by `Progression.chord_background`
and by `Progression.skeleton`, and is preserved by `Part.refine` for
every outcome of the random draws. -/
theorem parts_note_count_invariant :
    (∀ (chords : List (List ℤ)) (ryths : List (List Char))
      (min_pitch max_pitch : ℤ) (repeat_mode fuel : ℕ)
      (out : List (List ℤ) × List Char),
      Progression_chord_background chords ryths min_pitch max_pitch
        repeat_mode fuel = .ok out →
      count_notes out.2 = out.1.length) ∧
    (∀ (orp : ℕ → ℕ) (chords : List (List ℤ)) (meter minP maxP : ℤ)
      (fuel : ℕ) (out : List ℤ × List Char),
      Progression_skeleton orp chords meter minP maxP fuel = .ok out →
      count_notes out.2 = out.1.length) ∧
    (∀ (orb : ℕ → Bool) (orp : ℕ → ℕ) (end_tonic : Bool) (notes : List ℤ)
      (ryth : List Char) (fuel : ℕ) (out : List ℤ × List Char),
      count_notes ryth = notes.length →
      Part_refine orb orp end_tonic notes ryth fuel = .ok out →
      count_notes out.2 = out.1.length) := by
  refine ⟨?_, ?_, ?_⟩
  · intro chords ryths minP maxP rm fuel out h
    exact chord_background_go_count ryths minP maxP rm fuel chords [] [] []
      0 out (by simp [count_notes]) (by intro j hj; simp at hj)
      (by simp) h
  · intro orp chords meter minP maxP fuel out h
    exact skeletonGo_count orp meter minP maxP fuel chords [] [] _ [0] 0
      out (by simp [count_notes]) h
  · intro orb orp end_tonic notes ryth fuel out hinv h
    exact refineGo_count orb orp end_tonic fuel notes ryth 0 0 0 0 0 0 out
      hinv h

/-- Witness for C7 at concrete inputs: an empty progression for both
generators, and the one-note part for `refine`. -/
theorem parts_note_count_invariant_witness :
    count_notes (([], []) : List (List ℤ) × List Char).2 =
        (([], []) : List (List ℤ) × List Char).1.length ∧
      count_notes (([], []) : List ℤ × List Char).2 =
        (([], []) : List ℤ × List Char).1.length ∧
      (count_notes ['q'] = ([1] : List ℤ).length ∧
        count_notes (([1], ['q']) : List ℤ × List Char).2 =
          (([1], ['q']) : List ℤ × List Char).1.length) :=
  ⟨parts_note_count_invariant.1 [] [['w']] (-16) (-6) 1 1 ([], []) (by rfl),
   parts_note_count_invariant.2.1 (fun _ => 0) [] 4 1 11 1 ([], []) (by rfl),
   by decide,
   parts_note_count_invariant.2.2 (fun _ => false) (fun _ => 0) true [1]
     ['q'] 1 ([1], ['q']) (by decide) (by rfl)⟩
